import Mathlib

/-!
Verification development for the Zellular SDK (src/Rust-SDK/sdk.rs).

Shallow embedding conventions:
* The BLS12-381 group `G2Affine` of the external `bls12_381` crate is
  abstracted as a type `G2` with a `Sub` and a `Zero` instance (`0` models
  `G2Affine::identity()`); the external pairing-and-compare step
  `pairing(G2Prepared::from(pk), &sig).is_zero()` is abstracted as a
  function argument `pairing_is_zero : G2 → G2 → Bool`.
* The external SHA-256 helper `hash : &str → String` (sdk.rs lines 34-38)
  is abstracted as a function argument `hash : String → String`; every
  property proved here holds for an arbitrary hash function.
* Rust `f64` stake arithmetic is modeled over `ℚ` (exact arithmetic); where
  `f64` semantics would differ (division by zero yielding NaN) the theorems
  carry an explicit positivity hypothesis.
* `HashMap<String, Operator>` is modeled as an association list
  `List (String × Operator G2)` with `List.lookup` for `get`.
* `.unwrap()` panics are modeled as `Except.error`: a panic aborts the call
  and is surfaced to the caller, never converted into a boolean result.
* The network loop of `get_finalized` is driven by a fixed script of server
  responses; exhausting the script without the loop returning is modeled as
  `none` (the real loop would still be polling).
-/

namespace ZellularSDK

/-- Model of `struct Operator` (sdk.rs lines 9-20). Curve coordinates stay as
raw strings exactly as deserialized; `stake` is the `f64` field modeled
over `ℚ`; `public_key_g2` is the `Option<G2Affine>` placeholder field. -/
structure Operator (G2 : Type) where
  id : String
  operator_id : String
  pubkey_g1_x : List String
  pubkey_g1_y : List String
  pubkey_g2_x : List String
  pubkey_g2_y : List String
  socket : String
  stake : ℚ
  public_key_g2 : Option G2
  deriving DecidableEq

/-- The per-record normalization loop body of `get_operators` (sdk.rs lines
68-75): `operator.stake = f64::min(1.0, operator.stake / 10f64.powi(18))`
and the placeholder `public_key_g2 = Some(G2Affine::identity())`. -/
def normalize_operator {G2 : Type} [Zero G2] (op : Operator G2) : Operator G2 :=
  { op with stake := min 1 (op.stake / 10 ^ 18), public_key_g2 := some (0 : G2) }

/-- The pure part of `get_operators` (sdk.rs lines 66-78): the HTTP fetch is
out of scope, so the decoded operator records arrive as an argument; each is
normalized and inserted into the map keyed by its `id`. -/
def get_operators {G2 : Type} [Zero G2] (ops : List (Operator G2)) :
    List (String × Operator G2) :=
  ops.map (fun op => (op.id, normalize_operator op))

/-- Hard failures of `verify_signature`. The source surfaces both as
`.unwrap()` panics: `UnknownOperator` models the panic when a non-signer id
is absent from `self.operators` (sdk.rs lines 113 and 121), `MissingG2Key`
models the panic when an operator's `public_key_g2` is `None` (line 121). -/
inductive VerifyError where
  | UnknownOperator
  | MissingG2Key
  deriving DecidableEq

/-- Model of `struct Zellular` (sdk.rs lines 82-88). -/
structure Zellular (G2 : Type) where
  app_name : String
  base_url : String
  threshold_percent : ℚ
  operators : List (String × Operator G2)
  aggregated_public_key : G2

/-- `let total_stake: f64 = self.operators.values().map(|op| op.stake).sum()`
(sdk.rs line 112). -/
def total_stake {G2 : Type} (z : Zellular G2) : ℚ :=
  (z.operators.map (fun p => p.2.stake)).sum

/-- `nonsigners.iter().map(|id| self.operators.get(id).unwrap().stake).sum()`
(sdk.rs line 113); the `.unwrap()` panic on a missing id is modeled as the
`UnknownOperator` failure. -/
def nonsigners_stake {G2 : Type} (z : Zellular G2) :
    List String → Except VerifyError ℚ
  | [] => .ok 0
  | id :: rest =>
    match z.operators.lookup id with
    | none => .error .UnknownOperator
    | some op =>
      match nonsigners_stake z rest with
      | .error e => .error e
      | .ok s => .ok (op.stake + s)

/-- The key-subtraction loop of `verify_signature` (sdk.rs lines 119-122):
`public_key = public_key - self.operators.get(&nonsigner).unwrap().public_key_g2.unwrap()`
for each declared non-signer, both `.unwrap()` panics modeled as errors. -/
def subtract_keys {G2 : Type} [Sub G2] (z : Zellular G2) :
    G2 → List String → Except VerifyError G2
  | pk, [] => .ok pk
  | pk, id :: rest =>
    match z.operators.lookup id with
    | none => .error .UnknownOperator
    | some op =>
      match op.public_key_g2 with
      | none => .error .MissingG2Key
      | some key => subtract_keys z (pk - key) rest

/-- Model of `Zellular::verify_signature` (sdk.rs lines 111-128).
Control flow follows the source exactly: sum the non-signers' stakes (line
113, may panic), reject with `false` when
`100 * nonsigners_stake / total_stake > 100 - threshold_percent` (lines
115-117), subtract the non-signers' G2 keys from the aggregate (lines
119-122), then the placeholder check (lines 125-127): the message is hashed
but the result discarded, the `signature` local is hard-coded to
`G2Affine::identity()` — the `signature_hex` argument is never decoded — and
the result is `pairing_is_zero` applied to the effective key and that
identity `signature`. -/
def verify_signature {G2 : Type} [Sub G2] [Zero G2]
    (pairing_is_zero : G2 → G2 → Bool) (hash : String → String)
    (z : Zellular G2) (message signature_hex : String)
    (nonsigners : List String) : Except VerifyError Bool :=
  match nonsigners_stake z nonsigners with
  | .error e => .error e
  | .ok ns_stake =>
    if 100 * ns_stake / total_stake z > 100 - z.threshold_percent then
      .ok false
    else
      match subtract_keys z z.aggregated_public_key nonsigners with
      | .error e => .error e
      | .ok public_key =>
        let _message_hash := hash message
        let signature : G2 := 0
        .ok (pairing_is_zero public_key signature)

/-- One well-typed sequencer response payload (spec §6.2): the `batches`
array (`null` decoded as the empty array, matching `unwrap_or(&vec![])` at
sdk.rs line 144) and the optional `finalized.index` pointer. -/
structure ResponseData where
  batches : List String
  finalized : Option Int
  deriving DecidableEq

/-- A full response: `none` models `data: null` (sdk.rs line 140). -/
abbrev NodeResponse := Option ResponseData

/-- The inner `for batch in batches` loop of `get_finalized` (sdk.rs lines
147-155). Per batch: `index += 1`; the loop-local binding
`let chaining_hash = chaining_hash.clone().unwrap_or_else(|| "".to_string()) + &hash(batch)`
is rebuilt each iteration from the *outer optional argument* (the inner
`let` shadows it only until the end of the iteration, so nothing
accumulates) and is plain string concatenation; the batch is pushed onto
`res`; if a finalized pointer is present and `index` equals it, the function
returns `(chaining_hash, res)`. `Sum.inl` carries the `(index, res)` state
when the response is exhausted without returning; `Sum.inr` carries the
returned pair. -/
def process_batches (hash : String → String) (chaining_hash0 : Option String)
    (finalized : Option Int) :
    Int → List String → List String → (Int × List String) ⊕ (String × List String)
  | index, res, [] => .inl (index, res)
  | index, res, batch :: rest =>
    let index' := index + 1
    let chaining_hash := (chaining_hash0.getD "") ++ hash batch
    let res' := res ++ [batch]
    match finalized with
    | some f =>
      if index' = f then .inr (chaining_hash, res')
      else process_batches hash chaining_hash0 finalized index' res' rest
    | none => process_batches hash chaining_hash0 finalized index' res' rest

/-- The outer `loop` of `get_finalized` (sdk.rs lines 136-156), driven by a
fixed script of server responses. A `data: null` response is skipped
(`continue`, line 141); otherwise the batches are processed and, absent a
return, polling continues with the next response. `none` means the script
was exhausted with the loop still polling (no return happened). -/
def get_finalized_loop (hash : String → String) (chaining_hash0 : Option String) :
    Int → List String → List NodeResponse → Option (String × List String)
  | _, _, [] => none
  | index, res, none :: rest => get_finalized_loop hash chaining_hash0 index res rest
  | index, res, some d :: rest =>
    match process_batches hash chaining_hash0 d.finalized index res d.batches with
    | .inl (index', res') => get_finalized_loop hash chaining_hash0 index' res' rest
    | .inr out => some out

/-- Model of `Zellular::get_finalized` (sdk.rs lines 131-157): the fetch
index starts at `after` when a `chaining_hash` resume value is supplied and
at `after - 1` on a fresh start (line 134), then the polling loop runs
against the scripted responses. -/
def get_finalized (hash : String → String) (after : Int)
    (chaining_hash : Option String) (responses : List NodeResponse) :
    Option (String × List String) :=
  let index := if chaining_hash.isSome then after else after - 1
  get_finalized_loop hash chaining_hash index [] responses

/-- Modelled from the spec (§4.3): the rolling hash the specification
prescribes, `rollingHash = hash(rollingHash ++ hash(batchContent))` folded
over the batches in order. Used only to compare the source's chaining
against the claimed formula. -/
def spec_rolling_hash (hash : String → String) (init : String)
    (batches : List String) : String :=
  batches.foldl (fun acc b => hash (acc ++ hash b)) init

/-- A response script declares finalized index `f` when some non-null
response in it carries `finalized = some f`. -/
def declared_finalized (responses : List NodeResponse) (f : Int) : Prop :=
  ∃ r ∈ responses, ∃ d : ResponseData, r = some d ∧ d.finalized = some f

/-- A concrete stand-in for the external SHA-256 hex digest, used by the
concrete evaluations below (the theorems quantified over `hash` do not
depend on it). -/
def demo_hash (s : String) : String := "#" ++ s

/-- Concrete operator record over `G2 := ℤ`, for closed evaluations. -/
def demo_operator (opid : String) (st : ℚ) (key : Option ℤ) : Operator ℤ :=
  { id := opid, operator_id := opid, pubkey_g1_x := [], pubkey_g1_y := [],
    pubkey_g2_x := [], pubkey_g2_y := [], socket := "", stake := st,
    public_key_g2 := key }

/-- Concrete two-operator registry over `G2 := ℤ`: `A` holds stake `1/5`,
`B` holds stake `4/5`, threshold 67%. -/
def demo_registry : Zellular ℤ :=
  { app_name := "simple_app", base_url := "http://node",
    threshold_percent := 67,
    operators := [("A", demo_operator "A" (1/5) (some 3)),
                  ("B", demo_operator "B" (4/5) (some 5))],
    aggregated_public_key := 8 }

/-- Concrete registry with no operators at all: its total stake is `0`. -/
def empty_registry : Zellular ℤ :=
  { app_name := "simple_app", base_url := "http://node",
    threshold_percent := 67, operators := [], aggregated_public_key := 0 }

/-- Concrete stand-in for the external pairing-and-compare step that accepts
every input, used to observe which control path `verify_signature` took. -/
def tt_pairing : ℤ → ℤ → Bool := fun _ _ => true

/-- Concrete raw operator record with stake `3 * 10^18` (three full units
before normalization). -/
def demo_raw_operator : Operator ℤ := demo_operator "W" (3 * 10 ^ 18) none

/-- If some listed non-signer id has no entry in the operator map, the stake
summation of sdk.rs line 113 hits its `.unwrap()` on that id (or an earlier
missing one) and aborts: the whole sum is the `UnknownOperator` failure. -/
theorem nonsigners_stake_unknown {G2 : Type} (z : Zellular G2) (opid : String) :
    ∀ ns : List String, opid ∈ ns → z.operators.lookup opid = none →
      nonsigners_stake z ns = .error .UnknownOperator
  | [], hmem, _ => absurd hmem (List.not_mem_nil opid)
  | x :: rest, hmem, habs => by
    cases hx : z.operators.lookup x with
    | none => simp [nonsigners_stake, hx]
    | some op =>
      have hne : opid ≠ x := by
        intro h
        rw [h, hx] at habs
        exact Option.noConfusion habs
      have hrest : opid ∈ rest := by
        rcases List.mem_cons.mp hmem with h | h
        · exact absurd h hne
        · exact h
      have ih := nonsigners_stake_unknown z opid rest hrest habs
      simp [nonsigners_stake, hx, ih]

/-- Claim C1: the spec demands
`rollingHash = hash(rollingHash ++ hash(batchContent))` folded over every
batch; the source (sdk.rs line 149) instead rebuilds a loop-local string
`initialChainValue ++ hash(batch)` each iteration — plain concatenation,
never re-hashed, never accumulated — so the returned chain value is the
initial value concatenated with the hash of the final batch only, which
differs from the spec's fold already on the two-batch run `["a", "b"]`. -/
theorem chaining_hash_is_not_spec_fold :
    get_finalized demo_hash 0 none [some ⟨["a", "b"], some 1⟩] =
      some ("" ++ demo_hash "b", ["a", "b"]) ∧
    "" ++ demo_hash "b" ≠ spec_rolling_hash demo_hash "" ["a", "b"] := by
  exact ⟨rfl, by decide⟩

/-- Claim C2: the spec demands that the verdict depend on the pairing
equality `pairing(signature, g2) == pairing(hashToCurveG1(message),
effectiveKey)`; in the source (sdk.rs lines 124-127) the `signature_hex`
argument is never decoded, the message hash is computed and discarded, and
the pairing is applied to a hard-coded identity point — so the result of
`verify_signature` is identical for any two messages and any two signature
strings, for every registry, every non-signer list, every hash function and
every pairing implementation. -/
theorem verify_signature_ignores_message_and_signature {G2 : Type}
    [Sub G2] [Zero G2] (pairing_is_zero : G2 → G2 → Bool)
    (hash : String → String) (z : Zellular G2) (m1 s1 m2 s2 : String)
    (nonsigners : List String) :
    verify_signature pairing_is_zero hash z m1 s1 nonsigners =
      verify_signature pairing_is_zero hash z m2 s2 nonsigners := rfl

/-- Claim C3: with the non-signer stakes summing to `q` (all ids known) and
a positive total stake (the `f64` quotient is then finite, so the `ℚ` model
is faithful), the quorum rejection of sdk.rs lines 115-117 fires exactly
when `100 * q / totalStake > 100 - thresholdPercent`: when it fires,
`verify_signature` returns `Except.ok false` for *every* pairing
implementation and hash function (the pairing step is never consulted), and
when it does not fire the result is exactly the pairing step applied to the
subtracted key, so any rejection there is the pairing's, not the quorum's. -/
theorem verify_signature_quorum_check {G2 : Type} [Sub G2] [Zero G2]
    (z : Zellular G2) (m s : String) (nonsigners : List String) (q : ℚ)
    (hq : nonsigners_stake z nonsigners = .ok q)
    (hpos : 0 < total_stake z) :
    (100 * q / total_stake z > 100 - z.threshold_percent ↔
      ∀ (pIZ : G2 → G2 → Bool) (hash : String → String),
        verify_signature pIZ hash z m s nonsigners = .ok false) ∧
    (¬ 100 * q / total_stake z > 100 - z.threshold_percent →
      ∀ (pIZ : G2 → G2 → Bool) (hash : String → String),
        verify_signature pIZ hash z m s nonsigners =
          (subtract_keys z z.aggregated_public_key nonsigners).map
            (fun pk => pIZ pk 0)) := by
  have hbranch : ∀ (pIZ : G2 → G2 → Bool) (hash : String → String),
      verify_signature pIZ hash z m s nonsigners =
        if 100 * q / total_stake z > 100 - z.threshold_percent then .ok false
        else (subtract_keys z z.aggregated_public_key nonsigners).map
          (fun pk => pIZ pk 0) := by
    intro pIZ hash
    simp only [verify_signature, hq]
    by_cases hcond : 100 * q / total_stake z > 100 - z.threshold_percent
    · rw [if_pos hcond, if_pos hcond]
    · rw [if_neg hcond, if_neg hcond]
      cases subtract_keys z z.aggregated_public_key nonsigners <;> rfl
  constructor
  · constructor
    · intro hcond pIZ hash
      rw [hbranch, if_pos hcond]
    · intro hall
      by_contra hcond
      have h1 := hall (fun _ _ => true) (fun s => s)
      rw [hbranch, if_neg hcond] at h1
      cases hsub : subtract_keys z z.aggregated_public_key nonsigners with
      | error e => rw [hsub] at h1; exact Except.noConfusion h1
      | ok pk =>
        rw [hsub] at h1
        simp [Except.map] at h1
  · intro hcond pIZ hash
    rw [hbranch, if_neg hcond]

/-- Claim C3, witness: in the two-operator registry, declaring `B`
(stake `4/5`) a non-signer leaves only 20% signing against a 67% threshold,
so the quorum condition `80 > 33` holds and `verify_signature` rejects with
`false` for every pairing implementation. -/
theorem verify_signature_quorum_check_witness :
    (100 * (4/5 : ℚ) / total_stake demo_registry >
        100 - demo_registry.threshold_percent ↔
      ∀ (pIZ : ℤ → ℤ → Bool) (hash : String → String),
        verify_signature pIZ hash demo_registry "m" "s" ["B"] = .ok false) ∧
    (¬ 100 * (4/5 : ℚ) / total_stake demo_registry >
        100 - demo_registry.threshold_percent →
      ∀ (pIZ : ℤ → ℤ → Bool) (hash : String → String),
        verify_signature pIZ hash demo_registry "m" "s" ["B"] =
          (subtract_keys demo_registry demo_registry.aggregated_public_key
            ["B"]).map (fun pk => pIZ pk 0)) :=
  verify_signature_quorum_check demo_registry "m" "s" ["B"] (4/5)
    (by simp [nonsigners_stake, List.lookup, demo_registry, demo_operator])
    (by norm_num [total_stake, demo_registry, demo_operator])

/-- Claim C4: a non-signer id absent from the registry makes
`verify_signature` abort with the `UnknownOperator` hard failure — the
model of the `.unwrap()` panic of sdk.rs line 113, which fires while the
non-signer stake is being summed, before any boolean can be returned — so
the unknown id is never silently skipped and never produces `false`. -/
theorem verify_signature_unknown_nonsigner {G2 : Type} [Sub G2] [Zero G2]
    (pIZ : G2 → G2 → Bool) (hash : String → String) (z : Zellular G2)
    (m s : String) (nonsigners : List String) (opid : String)
    (hmem : opid ∈ nonsigners) (habs : z.operators.lookup opid = none) :
    verify_signature pIZ hash z m s nonsigners = .error .UnknownOperator := by
  rw [verify_signature, nonsigners_stake_unknown z opid nonsigners hmem habs]

/-- Claim C4, witness: `C` is not registered, so declaring it a non-signer
fails hard with `UnknownOperator`. -/
theorem verify_signature_unknown_nonsigner_witness :
    verify_signature tt_pairing demo_hash demo_registry "m" "s" ["C"] =
      .error .UnknownOperator :=
  verify_signature_unknown_nonsigner tt_pairing demo_hash demo_registry
    "m" "s" ["C"] "C" (by decide) rfl

/-- Claim C5: the spec demands that a zero total stake fail with
`EmptyOperatorSet`; the source has no such check and no such error — on the
empty registry (total stake `0`) `verify_signature` evaluates the quorum
quotient anyway (in `f64` this is `0.0/0.0 = NaN`, whose `>` comparison is
false, modeled here by `ℚ`'s zero-denominator convention which takes the
same branch) and proceeds to the pairing step, returning an ordinary
boolean instead of an error. -/
theorem verify_signature_zero_total_stake_no_error :
    total_stake empty_registry = 0 ∧
    verify_signature tt_pairing demo_hash empty_registry "m" "s" [] =
      .ok true := by
  refine ⟨rfl, ?_⟩
  norm_num [verify_signature, nonsigners_stake, subtract_keys, total_stake,
    empty_registry, tt_pairing]

/-- Claim C6: the spec demands that duplicate non-signer ids be
de-duplicated; the source (sdk.rs lines 113 and 120-122) iterates over the
list as given, so listing `A` (stake `1/5`) twice doubles its counted stake
from 20% to 40%, pushing the quorum check over the 33% allowance: the
duplicated call rejects with `false` while the de-duplicated call accepts —
the two results differ. -/
theorem verify_signature_duplicate_nonsigner_double_counts :
    verify_signature tt_pairing demo_hash demo_registry "m" "s" ["A"] =
      .ok true ∧
    verify_signature tt_pairing demo_hash demo_registry "m" "s" ["A", "A"] =
      .ok false := by
  constructor <;>
    norm_num [verify_signature, nonsigners_stake, subtract_keys, total_stake,
      demo_registry, demo_operator, tt_pairing]

/-- Claim C7: the initialization rule is as specified — `get_finalized`
starts fetching at `after` when a resume chain value is supplied and at
`after - 1` on a fresh start (both runs below exercise it) — but resumption
correctness fails: splitting the two-batch sequence into `pull(after = 0)`
and then `pull(after = 0, resume = "#a")` returns chain value `"#a#b"`
(the resume value concatenated with the hash of the last batch) while the
uninterrupted `pull(after = 0)` returns `"#b"` (its own initial value `""`
concatenated with the hash of the last batch): the concatenated batch lists
agree but the final chain values differ, because the per-iteration binding
of sdk.rs line 149 never folds earlier batches in. -/
theorem resumed_pull_differs_from_uninterrupted_pull :
    get_finalized demo_hash 0 none [some ⟨["a", "b"], some 1⟩] =
      some ("#b", ["a", "b"]) ∧
    get_finalized demo_hash 0 none [some ⟨["a"], some 0⟩] =
      some ("#a", ["a"]) ∧
    get_finalized demo_hash 0 (some "#a") [some ⟨["b"], some 1⟩] =
      some ("#a#b", ["b"]) ∧
    ["a"] ++ ["b"] = ["a", "b"] ∧
    ("#a#b" : String) ≠ "#b" :=
  ⟨rfl, rfl, rfl, rfl, by decide⟩

/-- Once the tracked index has reached or passed the declared finalized
index, the per-batch check `index == finalized.index` (sdk.rs line 152)
can never fire again — the index only increments — so the whole response
is consumed without returning. -/
theorem process_batches_past_pointer (hash : String → String)
    (ch : Option String) (f : Int) :
    ∀ (bs : List String) (index : Int) (res : List String), f ≤ index →
      process_batches hash ch (some f) index res bs =
        .inl (index + bs.length, res ++ bs)
  | [], index, res, _ => by simp [process_batches]
  | b :: rest, index, res, h => by
    have hne : ¬ (index + 1 = f) := by omega
    simp only [process_batches, if_neg hne]
    rw [process_batches_past_pointer hash ch f rest (index + 1) (res ++ [b])
      (by omega)]
    simp only [Sum.inl.injEq, Prod.mk.injEq, List.length_cons]
    constructor
    · push_cast
      ring
    · simp

/-- Claim C8: the spec demands a fatal `FinalityPointerRegression` error
when the server's declared finalized index is behind the puller's index;
the source has no such error and no such check — whenever every scripted
response declares a finalized index `f` at or behind the current index,
`get_finalized_loop` consumes every response and is still polling at the
end of the script (`none`): it increments past the pointer and never
returns, the modeled form of looping forever. -/
theorem finality_pointer_regression_loops_forever (hash : String → String)
    (ch : Option String) (f : Int) :
    ∀ (resps : List NodeResponse) (index : Int) (res : List String),
      f ≤ index →
      (∀ d : ResponseData, some d ∈ resps → d.finalized = some f) →
      get_finalized_loop hash ch index res resps = none
  | [], _, _, _, _ => rfl
  | none :: rest, index, res, hle, hall => by
    simp only [get_finalized_loop]
    exact finality_pointer_regression_loops_forever hash ch f rest index res
      hle (fun d hd => hall d (List.mem_cons_of_mem _ hd))
  | some d :: rest, index, res, hle, hall => by
    have hd : d.finalized = some f := hall d (List.mem_cons_self _ _)
    simp only [get_finalized_loop, hd,
      process_batches_past_pointer hash ch f d.batches index res hle]
    exact finality_pointer_regression_loops_forever hash ch f rest
      (index + d.batches.length) (res ++ d.batches) (by omega)
      (fun d' hd' => hall d' (List.mem_cons_of_mem _ hd'))

/-- Claim C8, witness: resuming at index 5 against a server whose finality
pointer regressed to 0 never returns — after two full responses the loop is
still polling. -/
theorem finality_pointer_regression_witness :
    get_finalized demo_hash 5 (some "h")
      [some ⟨["x"], some 0⟩, some ⟨["y"], some 0⟩] = none :=
  finality_pointer_regression_loops_forever demo_hash (some "h") 0
    [some ⟨["x"], some 0⟩, some ⟨["y"], some 0⟩] 5 [] (by omega)
    (by intro d hd
        simp only [List.mem_cons, List.not_mem_nil, or_false,
          Option.some.injEq] at hd
        rcases hd with rfl | rfl <;> rfl)

/-- Claim C9: normalization computes exactly
`min(1.0, rawStake / 10^18)`, and for a non-negative raw stake the result
lies in `[0, 1]`. -/
theorem stake_weight_normalized {G2 : Type} [Zero G2] (op : Operator G2)
    (h : 0 ≤ op.stake) :
    (normalize_operator op).stake = min 1 (op.stake / 10 ^ 18) ∧
    0 ≤ (normalize_operator op).stake ∧ (normalize_operator op).stake ≤ 1 := by
  refine ⟨rfl, ?_, ?_⟩
  · exact le_min (by norm_num) (div_nonneg h (by positivity))
  · exact min_le_left _ _

/-- Claim C9, witness: a raw stake of three full units (`3 * 10^18`)
normalizes to the clamp value and stays inside `[0, 1]`. -/
theorem stake_weight_normalized_witness :
    0 ≤ demo_raw_operator.stake ∧
    ((normalize_operator demo_raw_operator).stake =
        min 1 (demo_raw_operator.stake / 10 ^ 18) ∧
      0 ≤ (normalize_operator demo_raw_operator).stake ∧
      (normalize_operator demo_raw_operator).stake ≤ 1) :=
  ⟨by norm_num [demo_raw_operator, demo_operator],
    stake_weight_normalized demo_raw_operator
      (by norm_num [demo_raw_operator, demo_operator])⟩

/-- When a response's batch list is exhausted without a return, the index
advanced by exactly the number of batches and every batch was appended to
the output in order (sdk.rs lines 147-150). -/
theorem process_batches_inl (hash : String → String) (ch : Option String) :
    ∀ (bs : List String) (fin : Option Int) (index : Int) (res : List String)
      (i' : Int) (r' : List String),
      process_batches hash ch fin index res bs = .inl (i', r') →
      i' = index + bs.length ∧ r' = res ++ bs
  | [], fin, index, res, i', r', h => by
    simp only [process_batches, Sum.inl.injEq, Prod.mk.injEq] at h
    obtain ⟨h1, h2⟩ := h
    exact ⟨by simp [← h1], by simp [← h2]⟩
  | b :: rest, fin, index, res, i', r', h => by
    cases fin with
    | none =>
      simp only [process_batches] at h
      obtain ⟨h1, h2⟩ := process_batches_inl hash ch rest none (index + 1)
        (res ++ [b]) i' r' h
      refine ⟨?_, ?_⟩
      · rw [h1]
        simp only [List.length_cons]
        push_cast
        ring
      · rw [h2]
        simp
    | some f =>
      simp only [process_batches] at h
      by_cases hif : index + 1 = f
      · rw [if_pos hif] at h
        exact absurd h (by simp)
      · rw [if_neg hif] at h
        obtain ⟨h1, h2⟩ := process_batches_inl hash ch rest (some f)
          (index + 1) (res ++ [b]) i' r' h
        refine ⟨?_, ?_⟩
        · rw [h1]
          simp only [List.length_cons]
          push_cast
          ring
        · rw [h2]
          simp

/-- When a response triggers the return of sdk.rs lines 152-154, the batch
list grew by exactly `finalizedIndex - index` entries: the per-batch
increment ties the count of appended batches to the index distance. -/
theorem process_batches_inr (hash : String → String) (ch : Option String) :
    ∀ (bs : List String) (fin : Option Int) (index : Int) (res : List String)
      (h0 : String) (r' : List String),
      process_batches hash ch fin index res bs = .inr (h0, r') →
      ∃ f : Int, fin = some f ∧ (r'.length : Int) = res.length + (f - index)
  | [], fin, index, res, h0, r', h => by
    simp [process_batches] at h
  | b :: rest, fin, index, res, h0, r', h => by
    cases fin with
    | none =>
      simp only [process_batches] at h
      obtain ⟨f, hf, _⟩ := process_batches_inr hash ch rest none (index + 1)
        (res ++ [b]) h0 r' h
      exact absurd hf (by simp)
    | some f =>
      simp only [process_batches] at h
      by_cases hif : index + 1 = f
      · rw [if_pos hif] at h
        simp only [Sum.inr.injEq, Prod.mk.injEq] at h
        obtain ⟨_, h2⟩ := h
        refine ⟨f, rfl, ?_⟩
        rw [← h2]
        simp only [List.length_append, List.length_singleton]
        push_cast
        omega
      · rw [if_neg hif] at h
        obtain ⟨f', hf', hlen⟩ := process_batches_inr hash ch rest (some f)
          (index + 1) (res ++ [b]) h0 r' h
        injection hf' with hh
        subst hh
        refine ⟨f, rfl, ?_⟩
        simp only [List.length_append, List.length_singleton] at hlen
        push_cast at hlen ⊢
        omega

/-- Every successful exit of the polling loop happens on a response that
declares a finalized index `f`, and the output list has grown by exactly
`f - index` entries since the loop state `(index, res)`. -/
theorem get_finalized_loop_count (hash : String → String) (ch : Option String) :
    ∀ (resps : List NodeResponse) (index : Int) (res : List String)
      (out_h : String) (out : List String),
      get_finalized_loop hash ch index res resps = some (out_h, out) →
      ∃ f : Int, declared_finalized resps f ∧
        (out.length : Int) = res.length + (f - index)
  | [], index, res, out_h, out, h => by
    simp [get_finalized_loop] at h
  | none :: rest, index, res, out_h, out, h => by
    simp only [get_finalized_loop] at h
    obtain ⟨f, hdecl, hlen⟩ :=
      get_finalized_loop_count hash ch rest index res out_h out h
    obtain ⟨r, hr, dd, hdd, hfin⟩ := hdecl
    exact ⟨f, ⟨r, List.mem_cons_of_mem _ hr, dd, hdd, hfin⟩, hlen⟩
  | some d :: rest, index, res, out_h, out, h => by
    rcases hp : process_batches hash ch d.finalized index res d.batches with
      ⟨i', r'⟩ | ⟨ho, ro⟩
    · simp only [get_finalized_loop, hp] at h
      obtain ⟨h1, h2⟩ :=
        process_batches_inl hash ch d.batches d.finalized index res i' r' hp
      subst h1 h2
      obtain ⟨f, hdecl, hlen⟩ :=
        get_finalized_loop_count hash ch rest _ _ out_h out h
      obtain ⟨r, hr, dd, hdd, hfin⟩ := hdecl
      refine ⟨f, ⟨r, List.mem_cons_of_mem _ hr, dd, hdd, hfin⟩, ?_⟩
      rw [hlen]
      simp only [List.length_append]
      push_cast
      ring
    · simp only [get_finalized_loop, hp, Option.some.injEq, Prod.mk.injEq] at h
      obtain ⟨h1, h2⟩ := h
      obtain ⟨f, hf, hlen⟩ :=
        process_batches_inr hash ch d.batches d.finalized index res ho ro hp
      refine ⟨f, ⟨some d, List.mem_cons_self _ _, d, rfl, hf⟩, ?_⟩
      rw [← h2]
      exact hlen

/-- Claim C10: each consumed batch increments the fetch index exactly once
before being appended, so whenever `get_finalized` returns, the server
declared some finalized index `f` in the consumed script, the returned
batch list holds exactly `f - initialIndex` entries, and the index of the
last appended batch — initial index plus the number of batches appended —
equals `f`. -/
theorem get_finalized_batch_count (hash : String → String) (after : Int)
    (ch : Option String) (resps : List NodeResponse) (out_h : String)
    (out : List String)
    (h : get_finalized hash after ch resps = some (out_h, out)) :
    ∃ f : Int, declared_finalized resps f ∧
      (if ch.isSome then after else after - 1) + (out.length : Int) = f := by
  have h' : get_finalized_loop hash ch
      (if ch.isSome then after else after - 1) [] resps =
      some (out_h, out) := h
  obtain ⟨f, hdecl, hlen⟩ :=
    get_finalized_loop_count hash ch resps _ [] out_h out h'
  refine ⟨f, hdecl, ?_⟩
  simp only [List.length_nil, Nat.cast_zero] at hlen
  omega

/-- Claim C10, witness: a fresh pull from `after = 0` that stops at
finalized index 1 returns exactly `1 - (0 - 1) = 2` batches. -/
theorem get_finalized_batch_count_witness :
    ∃ f : Int, declared_finalized [some ⟨["a", "b"], some 1⟩] f ∧
      (if (none : Option String).isSome then (0 : Int) else 0 - 1) +
        ((["a", "b"] : List String).length : Int) = f :=
  get_finalized_batch_count demo_hash 0 none [some ⟨["a", "b"], some 1⟩]
    "#b" ["a", "b"] rfl

end ZellularSDK
